import Mathlib

/-!
Verification development for the rtype binary codec (src/unnamed/part_000).

The TypeScript source defines a schema model (`Type`), a value model
(`Value<T>`), and a pair of recursive functions `encode`/`decode` over an
`ArrayBuffer` with a running offset. This file gives a shallow embedding:

* `Ty` embeds the runtime schema descriptors (the `TYPE_KIND`-tagged objects).
* `Val` embeds the runtime JavaScript values the codec manipulates, including
  `undefined` (which arises from out-of-range indexing).  JS `number` and
  `bigint` payloads are both embedded as `Val.num` over `Int`; `f32`/`f64`
  values are embedded by the bit pattern that `setFloat32`/`setFloat64` would
  store, since no claim depends on IEEE-754 value/bit conversion.  JS strings
  are embedded as their UTF-8 byte sequences (what `TextEncoder`/`TextDecoder`
  convert to and from).
* Buffers are `List Nat` of fixed length; `DataView` writes/reads that would
  exceed the buffer throw `RangeError`, embedded as `Except` errors.
* JavaScript object key enumeration order (`for...in` / `Object.keys`) is
  embedded by `jsOrder`: array-index-like keys first in ascending numeric
  order, then the remaining keys in insertion order.
-/

namespace RType

/-- The `endian` field of `BincodeConfig`: `'little' | 'big'`. -/
inductive Endian where
  | little
  | big
deriving DecidableEq, Repr

/-- The `int_encoding` field of `BincodeConfig`: `'variant' | 'fixed'`.
Neither `encode` nor `decode` ever reads this field in the source. -/
inductive IntEncodingMode where
  | variantMode
  | fixedMode
deriving DecidableEq, Repr

/-- `BincodeConfig` from the source: endianness, integer-encoding mode and an
optional `limit` (never read by the source's codec). -/
structure BincodeConfig where
  endian : Endian
  int_encoding : IntEncodingMode
  limit : Option Nat
deriving DecidableEq, Repr

/-- The source's `STANDARD` configuration: little-endian, fixed-width ints. -/
def STANDARD : BincodeConfig := ⟨Endian.little, IntEncodingMode.fixedMode, none⟩

/-- Schema descriptors: the runtime objects tagged by `TYPE_KIND`.
`struct` fields and `enum` variants are kept as lists in insertion order
(the creation order of the keys of the underlying JS object); an enum
variant is `(name, discriminant, payload type)` where the discriminant is
the variant object's `SYMBOL_EXPR` number. -/
inductive Ty where
  | unit
  | u8 | u16 | u32 | u64 | u128
  | i8 | i16 | i32 | i64 | i128
  | f16 | f32 | f64 | f128
  | bool
  | str
  | tuple (elems : List Ty)
  | array (element : Ty) (size : Nat)
  | coll (element : Ty)
  | struct (fields : List (String × Ty))
  | enum (variants : List (String × Nat × Ty))

/-- Runtime JavaScript values seen by the codec.  `undefinedv` is JS `undefined`
(produced e.g. by indexing past the end of an array); `variantv` is the
`EnumVariantValue` object `⦃VARIANT: name, VALUE: payload⦄`; `obj` is a plain
object with its keys in insertion order. -/
inductive Val where
  | undefinedv
  | num (n : Int)
  | boolv (b : Bool)
  | str (bytes : List Nat)
  | list (elems : List Val)
  | obj (fields : List (String × Val))
  | variantv (name : String) (payload : Val)

/-- Errors a codec call can throw: `RangeError` (out-of-bounds `DataView`
access), `TypeError` (property access / iteration / `BigInt` conversion on an
unsuitable value), or an explicitly thrown string such as
`"not supported yet"` / `"unimplemented"`. -/
inductive JsErr where
  | rangeError
  | typeError
  | thrown (msg : String)
deriving DecidableEq, Repr

/-! ## JavaScript object key enumeration order

`for...in` and `Object.keys` enumerate own string keys with array-index-like
keys first in ascending numeric order, then all other keys in insertion
order (ECMAScript `OrdinaryOwnPropertyKeys`). -/

/-- Numeric value of a digit string (the characters are assumed decimal). -/
def digitsVal (cs : List Char) : Nat :=
  cs.foldl (fun a c => a * 10 + (c.toNat - 48)) 0

/-- Numeric value of a string key. -/
def keyNum (s : String) : Nat := digitsVal s.data

/-- Whether a string key is an ECMAScript array index: a canonical decimal
numeral (no leading zero except `"0"` itself) whose value is below
`2^32 - 1`. -/
def isArrayIndexName (s : String) : Bool :=
  match s.data with
  | [] => false
  | c :: cs =>
    (c :: cs).all (fun d => d.isDigit) &&
    (cs.isEmpty || c != '0') &&
    digitsVal (c :: cs) < 4294967295

/-- Stable insertion into a list sorted by `key`. -/
def insertByKey (key : α → Nat) (a : α) : List α → List α
  | [] => [a]
  | b :: bs => if key a < key b then a :: b :: bs else b :: insertByKey key a bs

/-- Stable insertion sort by `key`. -/
def sortByKey (key : α → Nat) : List α → List α
  | [] => []
  | a :: as => insertByKey key a (sortByKey key as)

/-- Key enumeration order of a JS object whose keys were created in the order
of the given association list: array-index-like keys in ascending numeric
order first, then the remaining keys in insertion order. -/
def jsOrder (l : List (String × α)) : List (String × α) :=
  sortByKey (fun p => keyNum p.1) (l.filter (fun p => isArrayIndexName p.1)) ++
    l.filter (fun p => !isArrayIndexName p.1)

/-! ### Weight lemmas for `jsOrder` (used for termination of the codec). -/

theorem sum_map_insertByKey (key : α → Nat) (g : α → Nat) (a : α) (l : List α) :
    ((insertByKey key a l).map g).sum = g a + (l.map g).sum := by
  induction l with
  | nil => simp [insertByKey]
  | cons b bs ih =>
    by_cases h : key a < key b
    · simp [insertByKey, h]
    · simp [insertByKey, h, ih]
      omega

theorem sum_map_sortByKey (key : α → Nat) (g : α → Nat) (l : List α) :
    ((sortByKey key l).map g).sum = (l.map g).sum := by
  induction l with
  | nil => rfl
  | cons a as ih => simp [sortByKey, sum_map_insertByKey, ih]

theorem sum_map_filter_split (p : α → Bool) (g : α → Nat) (l : List α) :
    ((l.filter p).map g).sum + ((l.filter (fun x => !p x)).map g).sum
      = (l.map g).sum := by
  induction l with
  | nil => rfl
  | cons a as ih =>
    by_cases h : p a <;> simp [List.filter_cons, h] <;> omega

theorem sum_map_jsOrder (g : String × α → Nat) (l : List (String × α)) :
    ((jsOrder l).map g).sum = (l.map g).sum := by
  simp [jsOrder, sum_map_sortByKey]
  rw [sum_map_filter_split (fun p => isArrayIndexName p.1) g l]

theorem mem_insertByKey {key : α → Nat} {a x : α} {l : List α}
    (h : x ∈ insertByKey key a l) : x = a ∨ x ∈ l := by
  induction l with
  | nil => simpa [insertByKey] using h
  | cons b bs ih =>
    by_cases hk : key a < key b
    · rw [insertByKey, if_pos hk] at h
      rcases List.mem_cons.1 h with h' | h'
      · exact Or.inl h'
      · exact Or.inr h'
    · rw [insertByKey, if_neg hk] at h
      rcases List.mem_cons.1 h with h' | h'
      · exact Or.inr (List.mem_cons.2 (Or.inl h'))
      · rcases ih h' with h'' | h''
        · exact Or.inl h''
        · exact Or.inr (List.mem_cons.2 (Or.inr h''))

theorem mem_sortByKey {key : α → Nat} {x : α} {l : List α}
    (h : x ∈ sortByKey key l) : x ∈ l := by
  induction l with
  | nil => simpa [sortByKey] using h
  | cons a as ih =>
    rcases mem_insertByKey h with h' | h'
    · simp [h']
    · simp [ih h']

theorem mem_jsOrder {x : String × α} {l : List (String × α)}
    (h : x ∈ jsOrder l) : x ∈ l := by
  rcases List.mem_append.1 h with h' | h'
  · exact (List.mem_filter.1 (mem_sortByKey h')).1
  · exact (List.mem_filter.1 h').1

/-- When no key looks like an array index, enumeration order is exactly the
insertion order. -/
theorem jsOrder_eq_self {l : List (String × α)}
    (h : ∀ p ∈ l, isArrayIndexName p.1 = false) : jsOrder l = l := by
  have h1 : l.filter (fun p => isArrayIndexName p.1) = [] := by
    rw [List.filter_eq_nil]
    intro p hp
    simp [h p hp]
  have h2 : l.filter (fun p => !isArrayIndexName p.1) = l := by
    rw [List.filter_eq_self]
    intro p hp
    simp [h p hp]
  simp [jsOrder, h1, h2, sortByKey]

/-! ## Termination measure for the codec -/

mutual

/-- Size of a schema node (termination measure for `encode`/`decode`). -/
def tyMeasure : Ty → Nat
  | .tuple ts => 1 + tysMeasure ts
  | .array t _ => 1 + tyMeasure t
  | .coll t => 1 + tyMeasure t
  | .struct fs => 1 + fieldsMeasure fs
  | .enum vs => 1 + variantsMeasure vs
  | _ => 1

/-- Sum of sizes of a list of schema nodes. -/
def tysMeasure : List Ty → Nat
  | [] => 0
  | t :: ts => tyMeasure t + tysMeasure ts

/-- Sum of sizes of struct fields. -/
def fieldsMeasure : List (String × Ty) → Nat
  | [] => 0
  | f :: fs => tyMeasure f.2 + fieldsMeasure fs

/-- Sum of sizes of enum variants. -/
def variantsMeasure : List (String × Nat × Ty) → Nat
  | [] => 0
  | v :: vs => tyMeasure v.2.2 + variantsMeasure vs

end

theorem tyMeasure_pos (t : Ty) : 1 ≤ tyMeasure t := by
  cases t <;> simp [tyMeasure] <;> omega

theorem fieldsMeasure_eq_sum (fs : List (String × Ty)) :
    fieldsMeasure fs = (fs.map (fun f => tyMeasure f.2)).sum := by
  induction fs with
  | nil => rfl
  | cons f fs ih => simp [fieldsMeasure, ih]

theorem variantsMeasure_eq_sum (vs : List (String × Nat × Ty)) :
    variantsMeasure vs = (vs.map (fun v => tyMeasure v.2.2)).sum := by
  induction vs with
  | nil => rfl
  | cons v vs ih => simp [variantsMeasure, ih]

theorem fieldsMeasure_jsOrder (fs : List (String × Ty)) :
    fieldsMeasure (jsOrder fs) = fieldsMeasure fs := by
  rw [fieldsMeasure_eq_sum, fieldsMeasure_eq_sum]
  exact sum_map_jsOrder _ fs

theorem tyMeasure_le_of_mem_tys {t : Ty} {ts : List Ty} (h : t ∈ ts) :
    tyMeasure t ≤ tysMeasure ts := by
  induction ts with
  | nil => cases h
  | cons a as ih =>
    rcases List.mem_cons.1 h with h' | h'
    · subst h'
      simp only [tysMeasure]
      omega
    · have := ih h'
      simp only [tysMeasure]
      omega

theorem tyMeasure_le_of_mem_fields {f : String × Ty} {fs : List (String × Ty)}
    (h : f ∈ fs) : tyMeasure f.2 ≤ fieldsMeasure fs := by
  induction fs with
  | nil => cases h
  | cons a as ih =>
    rcases List.mem_cons.1 h with h' | h'
    · subst h'
      simp only [fieldsMeasure]
      omega
    · have := ih h'
      simp only [fieldsMeasure]
      omega

theorem tyMeasure_le_of_mem_variants {v : String × Nat × Ty}
    {vs : List (String × Nat × Ty)} (h : v ∈ vs) :
    tyMeasure v.2.2 ≤ variantsMeasure vs := by
  induction vs with
  | nil => cases h
  | cons a as ih =>
    rcases List.mem_cons.1 h with h' | h'
    · subst h'
      simp only [variantsMeasure]
      omega
    · have := ih h'
      simp only [variantsMeasure]
      omega

/-! ## Value access and byte-level primitives -/

/-- JS abstract operation `ToUintN(ToNumber(v))` as performed by the
`DataView` numeric setters.  `true`/`false` coerce to 1/0; `undefined`
coerces through `NaN` to 0.  Object-like values also coerce through `NaN`
in every case exercised by the codec and are mapped to 0. -/
def jsToNat (w : Nat) (v : Val) : Nat :=
  match v with
  | .num n => (n % ((2 : Int) ^ w)).toNat
  | .boolv b => if b then 1 else 0
  | _ => 0

/-- The `width` low-order bytes of `n`, least significant first. -/
def natToLeBytes : Nat → Nat → List Nat
  | 0, _ => []
  | w + 1, n => n % 256 :: natToLeBytes w (n / 256)

/-- Bytes stored for an unsigned `width`-byte value under an endianness
(what `setUintN`/`setBigUint64` put into the buffer). -/
def numBytes (width : Nat) (e : Endian) (n : Nat) : List Nat :=
  match e with
  | .little => natToLeBytes width n
  | .big => (natToLeBytes width n).reverse

/-- Write `bs` into `buf` starting at `off`.  `DataView` setters and
`Uint8Array.set` throw `RangeError` when the write would run past the end
of the buffer, and otherwise replace exactly the targeted bytes. -/
def writeBytes (buf : List Nat) (off : Nat) (bs : List Nat) :
    Except JsErr (List Nat) :=
  if off + bs.length ≤ buf.length then
    .ok (buf.take off ++ bs ++ buf.drop (off + bs.length))
  else
    .error .rangeError

/-- JS indexing `v[i]` with a numeric index: arrays yield the element or
`undefined` past the end; strings yield a one-element slice; plain objects
look the stringified index up among their keys. -/
def valAt (v : Val) (i : Nat) : Val :=
  match v with
  | .list vs => vs.getD i .undefinedv
  | .str bs =>
    match bs.get? i with
    | some b => .str [b]
    | none => .undefinedv
  | .obj fs => ((fs.find? (fun f => f.1 == toString i)).map (fun f => f.2)).getD .undefinedv
  | _ => .undefinedv

/-- JS member access `v[k]` with a string key: objects look the key up,
arrays treat array-index-like keys as positions; everything else yields
`undefined`. -/
def objGet (v : Val) (k : String) : Val :=
  match v with
  | .obj fs => ((fs.find? (fun f => f.1 == k)).map (fun f => f.2)).getD .undefinedv
  | .list vs => if isArrayIndexName k then vs.getD (keyNum k) .undefinedv else .undefinedv
  | _ => .undefinedv

/-- The positional `(element type, element value)` pairs visited by the
tuple branch of `encode`: `encode(tupleType[index], tupleValue[index])`. -/
def pairValues : List Ty → Val → Nat → List (Ty × Val)
  | [], _, _ => []
  | t :: ts, v, i => (t, valAt v i) :: pairValues ts v (i + 1)

/-- The `(field type, field value)` pairs visited by the struct branch of
`encode`: `encode(structType[field], structValue[field])`. -/
def pairFields : List (String × Ty) → Val → List (Ty × Val)
  | [], _ => []
  | f :: fs, v => (f.2, objGet v f.1) :: pairFields fs v

/-- Termination weight of a type/value pair list. -/
def pairsMeasure : List (Ty × Val) → Nat
  | [] => 0
  | p :: ps => tyMeasure p.1 + pairsMeasure ps

theorem pairsMeasure_pairValues (ts : List Ty) (v : Val) (i : Nat) :
    pairsMeasure (pairValues ts v i) = tysMeasure ts := by
  induction ts generalizing i with
  | nil => rfl
  | cons t ts ih => simp only [pairValues, pairsMeasure, tysMeasure, ih]

theorem pairsMeasure_pairFields (fs : List (String × Ty)) (v : Val) :
    pairsMeasure (pairFields fs v) = fieldsMeasure fs := by
  induction fs with
  | nil => rfl
  | cons f fs ih => simp only [pairFields, pairsMeasure, fieldsMeasure, ih]

theorem mem_pairValues {p : Ty × Val} {ts : List Ty} {v : Val} {i : Nat}
    (h : p ∈ pairValues ts v i) : p.1 ∈ ts := by
  induction ts generalizing i with
  | nil => cases h
  | cons t ts ih =>
    rcases List.mem_cons.1 h with h' | h'
    · subst h'
      exact List.mem_cons.2 (Or.inl rfl)
    · exact List.mem_cons.2 (Or.inr (ih h'))

theorem mem_pairFields {p : Ty × Val} {fs : List (String × Ty)} {v : Val}
    (h : p ∈ pairFields fs v) : ∃ f ∈ fs, p.1 = f.2 := by
  induction fs with
  | nil => cases h
  | cons f fs ih =>
    rcases List.mem_cons.1 h with h' | h'
    · exact ⟨f, List.mem_cons.2 (Or.inl rfl), by rw [h']⟩
    · rcases ih h' with ⟨g, hg, hp⟩
      exact ⟨g, List.mem_cons.2 (Or.inr hg), hp⟩

/-! ## The encoder

Faithful embedding of `encode` from the source.  Notes on fidelity:

* `case "bool"` in the source is byte-for-byte the same call as `case "u8"`
  (`dataView.setUint8(offset, value as number)`), so both cases share the
  same right-hand side here; `ToNumber(true) = 1`, `ToNumber(false) = 0`.
* `case "u64"/"i64"` call `setBigUint64`/`setBigInt64`, which throw
  `TypeError` when the value is not a `bigint`; conforming values are
  embedded as `Val.num`.
* `case "f32"/"f64"` store the IEEE-754 image of the number; float values
  are embedded by their stored bit patterns (see the header comment).
* The signed setters store the same bytes as the unsigned ones
  (`ToIntN` and `ToUintN` agree modulo `2^width`).
* `case "collection"` evaluates `BigInt(collectionValue.length)`, which
  throws `TypeError` when the value is not an array.
* `case "enum"` reads `enumType[enumValue[VARIANT]][SYMBOL_EXPR]`, which
  throws `TypeError` when the value is not an `EnumVariantValue` or the
  variant name is not declared in the schema. -/

mutual

/-- The source's `encode(type, value, buffer, offset, config)`; returns the
new offset together with the updated buffer. -/
def encode (ty : Ty) (v : Val) (buf : List Nat) (off : Nat)
    (cfg : BincodeConfig) : Except JsErr (Nat × List Nat) :=
  match ty with
  | .unit => .ok (off, buf)
  | .u8 =>
    match writeBytes buf off (numBytes 1 cfg.endian (jsToNat 8 v)) with
    | .error e => .error e
    | .ok buf1 => .ok (off + 1, buf1)
  | .u16 =>
    match writeBytes buf off (numBytes 2 cfg.endian (jsToNat 16 v)) with
    | .error e => .error e
    | .ok buf1 => .ok (off + 2, buf1)
  | .u32 =>
    match writeBytes buf off (numBytes 4 cfg.endian (jsToNat 32 v)) with
    | .error e => .error e
    | .ok buf1 => .ok (off + 4, buf1)
  | .u64 =>
    match v with
    | .num n =>
      match writeBytes buf off (numBytes 8 cfg.endian ((n % ((2 : Int) ^ 64)).toNat)) with
      | .error e => .error e
      | .ok buf1 => .ok (off + 8, buf1)
    | _ => .error .typeError
  | .u128 => .error (.thrown "unimplemented")
  | .i8 =>
    match writeBytes buf off (numBytes 1 cfg.endian (jsToNat 8 v)) with
    | .error e => .error e
    | .ok buf1 => .ok (off + 1, buf1)
  | .i16 =>
    match writeBytes buf off (numBytes 2 cfg.endian (jsToNat 16 v)) with
    | .error e => .error e
    | .ok buf1 => .ok (off + 2, buf1)
  | .i32 =>
    match writeBytes buf off (numBytes 4 cfg.endian (jsToNat 32 v)) with
    | .error e => .error e
    | .ok buf1 => .ok (off + 4, buf1)
  | .i64 =>
    match v with
    | .num n =>
      match writeBytes buf off (numBytes 8 cfg.endian ((n % ((2 : Int) ^ 64)).toNat)) with
      | .error e => .error e
      | .ok buf1 => .ok (off + 8, buf1)
    | _ => .error .typeError
  | .i128 => .error (.thrown "unimplemented")
  | .f16 => .error (.thrown "unimplemented")
  | .f32 =>
    match writeBytes buf off (numBytes 4 cfg.endian (jsToNat 32 v)) with
    | .error e => .error e
    | .ok buf1 => .ok (off + 4, buf1)
  | .f64 =>
    match writeBytes buf off (numBytes 8 cfg.endian (jsToNat 64 v)) with
    | .error e => .error e
    | .ok buf1 => .ok (off + 8, buf1)
  | .f128 => .error (.thrown "unimplemented")
  | .bool =>
    match writeBytes buf off (numBytes 1 cfg.endian (jsToNat 8 v)) with
    | .error e => .error e
    | .ok buf1 => .ok (off + 1, buf1)
  | .str =>
    match v with
    | .str bs =>
      match writeBytes buf off (numBytes 8 cfg.endian bs.length) with
      | .error e => .error e
      | .ok buf1 =>
        match writeBytes buf1 (off + 8) bs with
        | .error e => .error e
        | .ok buf2 => .ok (off + 8 + bs.length, buf2)
    | _ => .error .typeError
  | .tuple ts =>
    match ts with
    | [t] => encode t v buf off cfg
    | other => encodePairs (pairValues other v 0) buf off cfg
  | .array t n => encodeElems t ((List.range n).map (valAt v)) buf off cfg
  | .coll t =>
    match v with
    | .list vs =>
      match writeBytes buf off (numBytes 8 cfg.endian vs.length) with
      | .error e => .error e
      | .ok buf1 => encodeElems t vs buf1 (off + 8) cfg
    | _ => .error .typeError
  | .struct fs => encodePairs (pairFields (jsOrder fs) v) buf off cfg
  | .enum vars =>
    match v with
    | .variantv name payload =>
      match hfind : vars.find? (fun q => q.1 == name) with
      | none => .error .typeError
      | some q =>
        match writeBytes buf off (numBytes 4 cfg.endian q.2.1) with
        | .error e => .error e
        | .ok buf1 => encode q.2.2 payload buf1 (off + 4) cfg
    | _ => .error .typeError
termination_by (tyMeasure ty, 0)
decreasing_by
  · simp [Prod.lex_def, tyMeasure, tysMeasure]
  · simp [Prod.lex_def, tyMeasure, pairsMeasure_pairValues]
  · simp [Prod.lex_def, tyMeasure]
  · simp [Prod.lex_def, tyMeasure]
  · simp [Prod.lex_def, tyMeasure, pairsMeasure_pairFields, fieldsMeasure_jsOrder]
  · have hmem := List.mem_of_find?_eq_some hfind
    have hle := tyMeasure_le_of_mem_variants hmem
    simp [Prod.lex_def, tyMeasure]
    omega

/-- The loop bodies of the tuple and struct branches of `encode`: encode
each `(type, value)` pair in order, threading the offset. -/
def encodePairs (ps : List (Ty × Val)) (buf : List Nat) (off : Nat)
    (cfg : BincodeConfig) : Except JsErr (Nat × List Nat) :=
  match ps with
  | [] => .ok (off, buf)
  | p :: rest =>
    match encode p.1 p.2 buf off cfg with
    | .error e => .error e
    | .ok (off1, buf1) => encodePairs rest buf1 off1 cfg
termination_by (pairsMeasure ps, ps.length + 1)
decreasing_by
  · simp [Prod.lex_def, pairsMeasure]
    omega
  · simp [Prod.lex_def, pairsMeasure]
    omega

/-- The loop bodies of the array and collection branches of `encode`:
encode each element value against the single element type. -/
def encodeElems (t : Ty) (vs : List Val) (buf : List Nat) (off : Nat)
    (cfg : BincodeConfig) : Except JsErr (Nat × List Nat) :=
  match vs with
  | [] => .ok (off, buf)
  | v :: rest =>
    match encode t v buf off cfg with
    | .error e => .error e
    | .ok (off1, buf1) => encodeElems t rest buf1 off1 cfg
termination_by (tyMeasure t, vs.length + 1)
decreasing_by
  · simp [Prod.lex_def]
  · simp [Prod.lex_def]

end

/-! ## The decoder

Faithful embedding of `decode` from the source, including its defects:

* `case "unit"` has no `break`, so control falls through into `case "u8"`:
  decoding a unit schema reads one byte and advances the cursor.
* `case "bool"` computes `view.getUint8(offset) === 0`, mapping byte 0 to
  `true` and byte 1 to `false`.
* `case "String"` reads its payload from `new Uint8Array(buffer, 8, len)`,
  i.e. from the fixed literal offset 8, not from the cursor.
* `case "collection"` reads its count from `view.getBigUint64(0, ...)`,
  i.e. from the fixed offset 0; and the case has no `break`, so after
  decoding the elements control falls through into `case "tuple"`, where
  `for...of` over the (non-iterable) collection descriptor throws a
  `TypeError`.
* `case "enum"` reads the discriminant with `view.getUint32(offset)` with
  no endianness argument, so the read is always big-endian regardless of
  `config.endian`; an unmatched discriminant destructures `undefined` and
  throws a `TypeError`.  The reverse index is built with `for...in`, so a
  duplicated discriminant resolves to the last variant in enumeration
  order. -/

/-- Read `n` bytes of `buf` starting at `off`; `DataView` getters and the
`Uint8Array` view constructor throw `RangeError` past the end. -/
def readBytes (buf : List Nat) (off n : Nat) : Except JsErr (List Nat) :=
  if off + n ≤ buf.length then .ok ((buf.drop off).take n) else .error .rangeError

/-- Value of a little-endian byte sequence. -/
def leBytesToNat (bs : List Nat) : Nat :=
  bs.foldr (fun b a => b + 256 * a) 0

/-- Value of a byte sequence under a configured endianness. -/
def bytesToNat (e : Endian) (bs : List Nat) : Nat :=
  match e with
  | .little => leBytesToNat bs
  | .big => leBytesToNat bs.reverse

/-- Two's-complement reading of an unsigned `w`-bit value (what the signed
`DataView` getters return). -/
def signedOf (w : Nat) (u : Nat) : Int :=
  if u < 2 ^ (w - 1) then (u : Int) else (u : Int) - 2 ^ w

mutual

/-- The source's `decode(type, buffer, offset, config)`; returns the decoded
value together with the new offset. -/
def decode (ty : Ty) (buf : List Nat) (off : Nat) (cfg : BincodeConfig) :
    Except JsErr (Val × Nat) :=
  match ty with
  | .unit =>
    match readBytes buf off 1 with
    | .error e => .error e
    | .ok bs => .ok (.num (bytesToNat cfg.endian bs), off + 1)
  | .u8 =>
    match readBytes buf off 1 with
    | .error e => .error e
    | .ok bs => .ok (.num (bytesToNat cfg.endian bs), off + 1)
  | .u16 =>
    match readBytes buf off 2 with
    | .error e => .error e
    | .ok bs => .ok (.num (bytesToNat cfg.endian bs), off + 2)
  | .u32 =>
    match readBytes buf off 4 with
    | .error e => .error e
    | .ok bs => .ok (.num (bytesToNat cfg.endian bs), off + 4)
  | .u64 =>
    match readBytes buf off 8 with
    | .error e => .error e
    | .ok bs => .ok (.num (bytesToNat cfg.endian bs), off + 8)
  | .u128 => .error (.thrown "not supported yet")
  | .i8 =>
    match readBytes buf off 1 with
    | .error e => .error e
    | .ok bs => .ok (.num (signedOf 8 (bytesToNat cfg.endian bs)), off + 1)
  | .i16 =>
    match readBytes buf off 2 with
    | .error e => .error e
    | .ok bs => .ok (.num (signedOf 16 (bytesToNat cfg.endian bs)), off + 2)
  | .i32 =>
    match readBytes buf off 4 with
    | .error e => .error e
    | .ok bs => .ok (.num (signedOf 32 (bytesToNat cfg.endian bs)), off + 4)
  | .i64 =>
    match readBytes buf off 8 with
    | .error e => .error e
    | .ok bs => .ok (.num (signedOf 64 (bytesToNat cfg.endian bs)), off + 8)
  | .i128 => .error (.thrown "not supported yet")
  | .f16 => .error (.thrown "not supported yet")
  | .f32 =>
    match readBytes buf off 4 with
    | .error e => .error e
    | .ok bs => .ok (.num (bytesToNat cfg.endian bs), off + 4)
  | .f64 =>
    match readBytes buf off 8 with
    | .error e => .error e
    | .ok bs => .ok (.num (bytesToNat cfg.endian bs), off + 8)
  | .f128 =>
    -- the source's switch has no "f128" case: the initial value ⦃⦄ and the
    -- unchanged offset are returned
    .ok (.obj [], off)
  | .bool =>
    match readBytes buf off 1 with
    | .error e => .error e
    | .ok bs => .ok (.boolv (bytesToNat cfg.endian bs == 0), off + 1)
  | .str =>
    match readBytes buf off 8 with
    | .error e => .error e
    | .ok lenBs =>
      match readBytes buf 8 (bytesToNat cfg.endian lenBs) with
      | .error e => .error e
      | .ok bs => .ok (.str bs, off + 8 + bytesToNat cfg.endian lenBs)
  | .coll t =>
    match readBytes buf 0 8 with
    | .error e => .error e
    | .ok cntBs =>
      match decodeReps t (bytesToNat cfg.endian cntBs) buf (off + 8) cfg with
      | .error e => .error e
      | .ok _ => .error .typeError
  | .tuple ts =>
    match ts with
    | [t] => decode t buf off cfg
    | other =>
      match decodeSeq other buf off cfg with
      | .error e => .error e
      | .ok (vs, off1) => .ok (.list vs, off1)
  | .array t n =>
    match decodeReps t n buf off cfg with
    | .error e => .error e
    | .ok (vs, off1) => .ok (.list vs, off1)
  | .struct fs =>
    match decodeFields (jsOrder fs) buf off cfg with
    | .error e => .error e
    | .ok (fvs, off1) => .ok (.obj fvs, off1)
  | .enum vars =>
    match readBytes buf off 4 with
    | .error e => .error e
    | .ok dBs =>
      match hfind : (jsOrder vars).reverse.find?
          (fun q => q.2.1 == leBytesToNat dBs.reverse) with
      | none => .error .typeError
      | some q =>
        match decode q.2.2 buf (off + 4) cfg with
        | .error e => .error e
        | .ok (pv, off1) => .ok (.variantv q.1 pv, off1)
termination_by (tyMeasure ty, 0)
decreasing_by
  · simp [Prod.lex_def, tyMeasure]
  · simp [Prod.lex_def, tyMeasure, tysMeasure]
  · simp [Prod.lex_def, tyMeasure]
  · simp [Prod.lex_def, tyMeasure]
  · simp [Prod.lex_def, tyMeasure, fieldsMeasure_jsOrder]
  · have hmem := mem_jsOrder (List.mem_reverse.1 (List.mem_of_find?_eq_some hfind))
    have hle := tyMeasure_le_of_mem_variants hmem
    simp [Prod.lex_def, tyMeasure]
    omega

/-- The loop body of the multi-element tuple branch of `decode`. -/
def decodeSeq (ts : List Ty) (buf : List Nat) (off : Nat)
    (cfg : BincodeConfig) : Except JsErr (List Val × Nat) :=
  match ts with
  | [] => .ok ([], off)
  | t :: rest =>
    match decode t buf off cfg with
    | .error e => .error e
    | .ok (v, off1) =>
      match decodeSeq rest buf off1 cfg with
      | .error e => .error e
      | .ok (vs, off2) => .ok (v :: vs, off2)
termination_by (tysMeasure ts, ts.length + 1)
decreasing_by
  · simp [Prod.lex_def, tysMeasure]
    omega
  · simp [Prod.lex_def, tysMeasure]
    omega

/-- The loop body of the struct branch of `decode`: fields are visited (and
recorded in the result object) in enumeration order. -/
def decodeFields (fs : List (String × Ty)) (buf : List Nat) (off : Nat)
    (cfg : BincodeConfig) : Except JsErr (List (String × Val) × Nat) :=
  match fs with
  | [] => .ok ([], off)
  | f :: rest =>
    match decode f.2 buf off cfg with
    | .error e => .error e
    | .ok (v, off1) =>
      match decodeFields rest buf off1 cfg with
      | .error e => .error e
      | .ok (fvs, off2) => .ok ((f.1, v) :: fvs, off2)
termination_by (fieldsMeasure fs, fs.length + 1)
decreasing_by
  · simp [Prod.lex_def, fieldsMeasure]
    omega
  · simp [Prod.lex_def, fieldsMeasure]
    omega

/-- The loop bodies of the array and collection branches of `decode`:
decode `count` successive elements. -/
def decodeReps (t : Ty) (count : Nat) (buf : List Nat) (off : Nat)
    (cfg : BincodeConfig) : Except JsErr (List Val × Nat) :=
  match count with
  | 0 => .ok ([], off)
  | c + 1 =>
    match decode t buf off cfg with
    | .error e => .error e
    | .ok (v, off1) =>
      match decodeReps t c buf off1 cfg with
      | .error e => .error e
      | .ok (vs, off2) => .ok (v :: vs, off2)
termination_by (tyMeasure t, count + 1)
decreasing_by
  · simp [Prod.lex_def]
  · simp [Prod.lex_def]

end

/-! ### Non-dependent unfolding lemmas for the enum branches

The enum branches above match on the lookup result with a named equation
(needed by the termination proof); these lemmas restate them with a plain
match so that concrete computations can be carried out by `simp`. -/

theorem encode_enum_eq (vars : List (String × Nat × Ty)) (name : String)
    (payload : Val) (buf : List Nat) (off : Nat) (cfg : BincodeConfig) :
    encode (.enum vars) (.variantv name payload) buf off cfg =
      match vars.find? (fun q => q.1 == name) with
      | none => .error .typeError
      | some q =>
        match writeBytes buf off (numBytes 4 cfg.endian q.2.1) with
        | .error e => .error e
        | .ok buf1 => encode q.2.2 payload buf1 (off + 4) cfg := by
  simp only [encode]
  split <;> rename_i h <;> simp [h]

theorem decode_enum_eq (vars : List (String × Nat × Ty)) (buf : List Nat)
    (off : Nat) (cfg : BincodeConfig) :
    decode (.enum vars) buf off cfg =
      match readBytes buf off 4 with
      | .error e => .error e
      | .ok dBs =>
        match (jsOrder vars).reverse.find?
            (fun q => q.2.1 == leBytesToNat dBs.reverse) with
        | none => .error .typeError
        | some q =>
          match decode q.2.2 buf (off + 4) cfg with
          | .error e => .error e
          | .ok (pv, off1) => .ok (.variantv q.1 pv, off1) := by
  simp only [decode]
  rcases readBytes buf off 4 with e | dBs
  · rfl
  · simp only
    split <;> rename_i h <;> simp [h]

/-! ## Frame property of the encoder

A successful `encode` call only touches the bytes between the starting
offset and the returned offset. -/

/-- `buf'` has the same length as `buf` and agrees with it at every index
outside the half-open range `[a, b)`. -/
def sameOutside (buf buf' : List Nat) (a b : Nat) : Prop :=
  buf'.length = buf.length ∧ ∀ i, i < a ∨ b ≤ i → buf'[i]? = buf[i]?

theorem sameOutside_refl (buf : List Nat) (a b : Nat) : sameOutside buf buf a b :=
  ⟨rfl, fun _ _ => rfl⟩

theorem sameOutside_chain {b0 b1 b2 : List Nat} {off off1 off2 : Nat}
    (h1 : sameOutside b0 b1 off off1) (h2 : sameOutside b1 b2 off1 off2)
    (hle1 : off ≤ off1) (hle2 : off1 ≤ off2) : sameOutside b0 b2 off off2 := by
  refine ⟨h2.1.trans h1.1, fun i hi => ?_⟩
  have e2 : b2[i]? = b1[i]? := h2.2 i (by omega)
  have e1 : b1[i]? = b0[i]? := h1.2 i (by omega)
  rw [e2, e1]

theorem writeBytes_sameOutside {buf : List Nat} {off : Nat} {bs : List Nat}
    {buf' : List Nat} (h : writeBytes buf off bs = .ok buf') :
    sameOutside buf buf' off (off + bs.length) := by
  unfold writeBytes at h
  split at h
  case isFalse => cases h
  case isTrue hb =>
    have hbuf : buf' = buf.take off ++ bs ++ buf.drop (off + bs.length) := by
      cases h
      rfl
    subst hbuf
    have htl : (buf.take off).length = off := by
      rw [List.length_take]
      omega
    constructor
    · simp only [List.length_append, List.length_take, List.length_drop]
      omega
    · intro i hi
      rcases hi with hi | hi
      · rw [List.getElem?_append_left (by rw [List.length_append, htl]; omega),
          List.getElem?_append_left (by rw [htl]; omega),
          List.getElem?_take_of_lt (by omega)]
      · rw [List.getElem?_append_right (by rw [List.length_append, htl]; omega),
          List.getElem?_drop]
        congr 1
        rw [List.length_append, htl]
        omega

theorem length_natToLeBytes (w n : Nat) : (natToLeBytes w n).length = w := by
  induction w generalizing n with
  | zero => rfl
  | succ w ih => simp [natToLeBytes, ih]

theorem length_numBytes (w : Nat) (e : Endian) (n : Nat) :
    (numBytes w e n).length = w := by
  cases e <;> simp [numBytes, length_natToLeBytes]

/-- Frame statement for `encode` at one schema node. -/
def EncFrame (ty : Ty) : Prop :=
  ∀ (v : Val) (buf : List Nat) (off : Nat) (cfg : BincodeConfig)
    (off' : Nat) (buf' : List Nat),
    encode ty v buf off cfg = .ok (off', buf') →
    off ≤ off' ∧ sameOutside buf buf' off off'

/-- Frame step for the fixed-width numeric branches of `encode`. -/
theorem primStep_frame {buf : List Nat} {off w : Nat} {bs : List Nat}
    {off' : Nat} {buf' : List Nat} (hlen : bs.length = w)
    (h : (match writeBytes buf off bs with
          | .error e => Except.error e
          | .ok buf1 => Except.ok (off + w, buf1)) = Except.ok (off', buf')) :
    off ≤ off' ∧ sameOutside buf buf' off off' := by
  split at h
  · cases h
  · rename_i buf1 heq
    have hw := writeBytes_sameOutside heq
    rw [hlen] at hw
    simp only [Except.ok.injEq, Prod.mk.injEq] at h
    obtain ⟨h1, h2⟩ := h
    subst h1
    subst h2
    exact ⟨by omega, hw⟩

theorem encodePairs_frame {ps : List (Ty × Val)}
    (hps : ∀ p ∈ ps, EncFrame p.1) :
    ∀ (buf : List Nat) (off : Nat) (cfg : BincodeConfig)
      (off' : Nat) (buf' : List Nat),
      encodePairs ps buf off cfg = .ok (off', buf') →
      off ≤ off' ∧ sameOutside buf buf' off off' := by
  induction ps with
  | nil =>
    intro buf off cfg off' buf' h
    simp only [encodePairs, Except.ok.injEq, Prod.mk.injEq] at h
    obtain ⟨rfl, rfl⟩ := h
    exact ⟨Nat.le_refl _, sameOutside_refl _ _ _⟩
  | cons p rest ih =>
    intro buf off cfg off' buf' h
    simp only [encodePairs] at h
    split at h
    · cases h
    · rename_i off1 buf1 heq
      have h1 := hps p (List.mem_cons_self p rest) p.2 buf off cfg off1 buf1 heq
      have h2 := ih (fun q hq => hps q (List.mem_cons.2 (Or.inr hq)))
        buf1 off1 cfg off' buf' h
      exact ⟨h1.1.trans h2.1, sameOutside_chain h1.2 h2.2 h1.1 h2.1⟩

theorem encodeElems_frame {t : Ty} (ht : EncFrame t) :
    ∀ (vs : List Val) (buf : List Nat) (off : Nat) (cfg : BincodeConfig)
      (off' : Nat) (buf' : List Nat),
      encodeElems t vs buf off cfg = .ok (off', buf') →
      off ≤ off' ∧ sameOutside buf buf' off off' := by
  intro vs
  induction vs with
  | nil =>
    intro buf off cfg off' buf' h
    simp only [encodeElems, Except.ok.injEq, Prod.mk.injEq] at h
    obtain ⟨rfl, rfl⟩ := h
    exact ⟨Nat.le_refl _, sameOutside_refl _ _ _⟩
  | cons v rest ih =>
    intro buf off cfg off' buf' h
    simp only [encodeElems] at h
    split at h
    · cases h
    · rename_i off1 buf1 heq
      have h1 := ht v buf off cfg off1 buf1 heq
      have h2 := ih buf1 off1 cfg off' buf' h
      exact ⟨h1.1.trans h2.1, sameOutside_chain h1.2 h2.2 h1.1 h2.1⟩

theorem encode_frame_aux : ∀ (k : Nat) (ty : Ty), tyMeasure ty ≤ k → EncFrame ty := by
  intro k
  induction k with
  | zero =>
    intro ty h
    have := tyMeasure_pos ty
    omega
  | succ k ih =>
    intro ty hty v buf off cfg off' buf' h
    cases ty with
    | unit =>
      simp only [encode, Except.ok.injEq, Prod.mk.injEq] at h
      obtain ⟨rfl, rfl⟩ := h
      exact ⟨Nat.le_refl _, sameOutside_refl _ _ _⟩
    | u8 =>
      simp only [encode] at h
      exact primStep_frame (length_numBytes 1 cfg.endian _) h
    | u16 =>
      simp only [encode] at h
      exact primStep_frame (length_numBytes 2 cfg.endian _) h
    | u32 =>
      simp only [encode] at h
      exact primStep_frame (length_numBytes 4 cfg.endian _) h
    | u64 =>
      cases v <;> simp only [encode] at h <;> try cases h
      exact primStep_frame (length_numBytes 8 cfg.endian _) h
    | u128 =>
      simp only [encode] at h
      cases h
    | i8 =>
      simp only [encode] at h
      exact primStep_frame (length_numBytes 1 cfg.endian _) h
    | i16 =>
      simp only [encode] at h
      exact primStep_frame (length_numBytes 2 cfg.endian _) h
    | i32 =>
      simp only [encode] at h
      exact primStep_frame (length_numBytes 4 cfg.endian _) h
    | i64 =>
      cases v <;> simp only [encode] at h <;> try cases h
      exact primStep_frame (length_numBytes 8 cfg.endian _) h
    | i128 =>
      simp only [encode] at h
      cases h
    | f16 =>
      simp only [encode] at h
      cases h
    | f32 =>
      simp only [encode] at h
      exact primStep_frame (length_numBytes 4 cfg.endian _) h
    | f64 =>
      simp only [encode] at h
      exact primStep_frame (length_numBytes 8 cfg.endian _) h
    | f128 =>
      simp only [encode] at h
      cases h
    | bool =>
      simp only [encode] at h
      exact primStep_frame (length_numBytes 1 cfg.endian _) h
    | str =>
      cases v <;> simp only [encode] at h <;> try cases h
      rename_i bs
      split at h
      · cases h
      · rename_i buf1 heq1
        split at h
        · cases h
        · rename_i buf2 heq2
          simp only [Except.ok.injEq, Prod.mk.injEq] at h
          obtain ⟨rfl, rfl⟩ := h
          have hw1 := writeBytes_sameOutside heq1
          rw [length_numBytes] at hw1
          have hw2 := writeBytes_sameOutside heq2
          refine ⟨by omega, ?_⟩
          have := sameOutside_chain hw1 hw2 (by omega) (by omega)
          exact this
    | tuple ts =>
      match ts with
      | [t] =>
        simp only [encode] at h
        have hm : tyMeasure t ≤ k := by
          simp only [tyMeasure, tysMeasure] at hty
          omega
        exact ih t hm v buf off cfg off' buf' h
      | [] =>
        simp only [encode, pairValues, encodePairs, Except.ok.injEq,
          Prod.mk.injEq] at h
        obtain ⟨rfl, rfl⟩ := h
        exact ⟨Nat.le_refl _, sameOutside_refl _ _ _⟩
      | t1 :: t2 :: rest =>
        simp only [encode] at h
        refine encodePairs_frame ?_ buf off cfg off' buf' h
        intro p hp
        have hmem := mem_pairValues hp
        have hle := tyMeasure_le_of_mem_tys hmem
        have hm : tyMeasure p.1 ≤ k := by
          simp only [tyMeasure] at hty
          omega
        exact ih p.1 hm
    | array t n =>
      simp only [encode] at h
      have hm : tyMeasure t ≤ k := by
        simp only [tyMeasure] at hty
        omega
      exact encodeElems_frame (ih t hm) _ buf off cfg off' buf' h
    | coll t =>
      cases v <;> simp only [encode] at h <;> try cases h
      rename_i vs
      split at h
      · cases h
      · rename_i buf1 heq1
        have hw1 := writeBytes_sameOutside heq1
        rw [length_numBytes] at hw1
        have hm : tyMeasure t ≤ k := by
          simp only [tyMeasure] at hty
          omega
        have h2 := encodeElems_frame (ih t hm) vs buf1 (off + 8) cfg off' buf' h
        exact ⟨by omega, sameOutside_chain hw1 h2.2 (by omega) h2.1⟩
    | struct fs =>
      simp only [encode] at h
      refine encodePairs_frame ?_ buf off cfg off' buf' h
      intro p hp
      obtain ⟨f, hf, hpf⟩ := mem_pairFields hp
      have hmem := mem_jsOrder hf
      have hle := tyMeasure_le_of_mem_fields hmem
      have hm : tyMeasure p.1 ≤ k := by
        rw [hpf]
        simp only [tyMeasure] at hty
        omega
      exact ih p.1 hm
    | enum vars =>
      cases v with
      | undefinedv =>
        simp only [encode] at h
        cases h
      | num n =>
        simp only [encode] at h
        cases h
      | boolv b =>
        simp only [encode] at h
        cases h
      | str s =>
        simp only [encode] at h
        cases h
      | list l =>
        simp only [encode] at h
        cases h
      | obj o =>
        simp only [encode] at h
        cases h
      | variantv name payload =>
      rw [encode_enum_eq] at h
      split at h
      · cases h
      · rename_i q hfind
        split at h
        · cases h
        · rename_i buf1 heq1
          have hw1 := writeBytes_sameOutside heq1
          rw [length_numBytes] at hw1
          have hmem := List.mem_of_find?_eq_some hfind
          have hle := tyMeasure_le_of_mem_variants hmem
          have hm : tyMeasure q.2.2 ≤ k := by
            simp only [tyMeasure] at hty
            omega
          have h2 := ih q.2.2 hm payload buf1 (off + 4) cfg off' buf' h
          exact ⟨by omega, sameOutside_chain hw1 h2.2 (by omega) h2.1⟩

/-! ## Claims -/

/-- C1 (code bug): round-trip fails.  For the schema `bool` and the
conforming value `true`, `encode` writes the byte 1, but `decode` maps the
byte 1 back to `false` (its test is `view.getUint8(offset) === 0`), so
decoding the encoding does not reproduce the value. -/
theorem claim_c1_roundtrip_code_bug :
    encode .bool (.boolv true) [0] 0 STANDARD = .ok (1, [1]) ∧
    decode .bool [1] 0 STANDARD = .ok (.boolv false, 1) ∧
    Val.boolv false ≠ Val.boolv true := by
  refine ⟨?_, ?_, by simp⟩
  · simp [encode, writeBytes, numBytes, natToLeBytes, jsToNat, STANDARD]
  · simp [decode, readBytes, bytesToNat, leBytesToNat, STANDARD]

/-- C2 (code bug): the encoder writes 1 for `true` and 0 for `false` and
advances by one byte as claimed, but the decoder maps the byte 1 to `false`
and the byte 0 to `true` — the opposite of the claimed wire mapping. -/
theorem claim_c2_bool_wire_code_bug :
    encode .bool (.boolv true) [7] 0 STANDARD = .ok (1, [1]) ∧
    encode .bool (.boolv false) [7] 0 STANDARD = .ok (1, [0]) ∧
    decode .bool [1] 0 STANDARD = .ok (.boolv false, 1) ∧
    decode .bool [0] 0 STANDARD = .ok (.boolv true, 1) := by
  refine ⟨?_, ?_, ?_, ?_⟩ <;>
    simp [encode, decode, writeBytes, readBytes, numBytes, natToLeBytes,
      jsToNat, bytesToNat, leBytesToNat, STANDARD]

/-- C3 (code bug): encoding an empty `Collection(u32)` value does produce
exactly 8 zero bytes, but the decoder reads the element count from the
fixed absolute offset 0 (`view.getBigUint64(0, ...)`), not from the cursor:
decoding at offset 8 a buffer whose bytes at the cursor encode the count 0
instead picks up the count 2 stored at offset 0 and runs off the end of the
buffer.  Moreover the collection case falls through into the tuple case,
which throws a `TypeError` even when the count decodes cleanly. -/
theorem claim_c3_collection_code_bug :
    encode (.coll .u32) (.list []) [9, 9, 9, 9, 9, 9, 9, 9] 0 STANDARD
      = .ok (8, [0, 0, 0, 0, 0, 0, 0, 0]) ∧
    decode (.coll .u32) [2, 0, 0, 0, 0, 0, 0, 0, 0, 0, 0, 0, 0, 0, 0, 0] 8 STANDARD
      = .error .rangeError ∧
    decode (.coll .u32) [0, 0, 0, 0, 0, 0, 0, 0] 0 STANDARD
      = .error .typeError := by
  refine ⟨?_, ?_, ?_⟩
  · simp [encode, encodeElems, writeBytes, numBytes, natToLeBytes, STANDARD]
  · simp [decode, decodeReps, readBytes, bytesToNat, leBytesToNat, STANDARD]
  · simp [decode, decodeReps, readBytes, bytesToNat, leBytesToNat, STANDARD]

/-- C4 (code bug): encoding a unit schema writes nothing and returns the
offset unchanged, as claimed; but the decoder's unit case has no `break`
and falls through into the `u8` case, so decoding a unit schema reads one
byte (returned as a number) and advances the cursor by 1 instead of
consuming zero bytes. -/
theorem claim_c4_unit_code_bug :
    (∀ (v : Val) (buf : List Nat) (off : Nat) (cfg : BincodeConfig),
      encode .unit v buf off cfg = .ok (off, buf)) ∧
    decode .unit [42] 0 STANDARD = .ok (.num 42, 1) := by
  constructor
  · intro v buf off cfg
    simp [encode]
  · simp [decode, readBytes, bytesToNat, leBytesToNat, STANDARD]

/-- C5 (code bug): the encoder writes the 4-byte discriminant in the
configured byte order, but the decoder reads it with `view.getUint32(offset)`
— no endianness argument, hence always big-endian.  Under the little-endian
`STANDARD` configuration, the variant with discriminant 1 encodes to bytes
`[1,0,0,0]`, which the decoder reads back as 16777216 and fails to resolve
(`TypeError`); the same decoder happily resolves the big-endian bytes
`[0,0,0,1]` even though the configuration says little-endian. -/
theorem claim_c5_enum_discriminant_code_bug :
    encode (.enum [("A", 1, .unit)]) (.variantv "A" (.obj [])) [0, 0, 0, 0] 0 STANDARD
      = .ok (4, [1, 0, 0, 0]) ∧
    decode (.enum [("A", 1, .unit)]) [1, 0, 0, 0] 0 STANDARD = .error .typeError ∧
    decode (.enum [("A", 1, .unit)]) [0, 0, 0, 1, 9] 0 STANDARD
      = .ok (.variantv "A" (.num 9), 5) := by
  refine ⟨?_, ?_, ?_⟩
  · simp [encode_enum_eq, encode, writeBytes, numBytes, natToLeBytes, STANDARD]
  · simp [decode_enum_eq, readBytes, jsOrder, sortByKey, insertByKey,
      isArrayIndexName, leBytesToNat, STANDARD]
  · simp [decode_enum_eq, decode, readBytes, jsOrder, sortByKey, insertByKey,
      isArrayIndexName, leBytesToNat, bytesToNat, STANDARD]

/-- C6 (counterexample): the claim says struct fields are encoded in
declared (insertion) order even for names that look like array indices.
For the schema `Struct ⦃b: u8, 0: u8⦄` (declared order `b` then `0`) and
the value `⦃b: 1, 0: 2⦄`, the encoder emits the byte of field `0` first —
JS `for...in` enumerates the array-index-like key `"0"` before `"b"` — so
the output is `[2,1]`, not the claimed `[1,2]`. -/
theorem claim_c6_insertion_order_counterexample :
    encode (.struct [("b", .u8), ("0", .u8)]) (.obj [("b", .num 1), ("0", .num 2)])
        [0, 0] 0 STANDARD = .ok (2, [2, 1]) ∧
    encode (.struct [("b", .u8), ("0", .u8)]) (.obj [("b", .num 1), ("0", .num 2)])
        [0, 0] 0 STANDARD ≠ .ok (2, [1, 2]) := by
  have h : encode (.struct [("b", .u8), ("0", .u8)])
      (.obj [("b", .num 1), ("0", .num 2)]) [0, 0] 0 STANDARD = .ok (2, [2, 1]) := by
    simp [encode, encodePairs, pairFields, jsOrder, sortByKey, insertByKey,
      isArrayIndexName, objGet, writeBytes, numBytes, natToLeBytes, jsToNat, STANDARD]
  refine ⟨h, ?_⟩
  rw [h]
  simp

/-- C6 (amended): the encoder visits struct fields in JS key enumeration
order — array-index-like names first in ascending numeric order, then the
remaining names in insertion order — and the decoder visits fields in that
same order.  In particular, when no field name looks like an array index,
both process the fields exactly in the schema's declared order. -/
theorem claim_c6_enumeration_order (fs : List (String × Ty)) (v : Val)
    (buf : List Nat) (off : Nat) (cfg : BincodeConfig)
    (h : ∀ p ∈ fs, isArrayIndexName p.1 = false) :
    encode (.struct fs) v buf off cfg = encodePairs (pairFields fs v) buf off cfg ∧
    decode (.struct fs) buf off cfg
      = Except.map (fun r => (Val.obj r.1, r.2)) (decodeFields fs buf off cfg) := by
  constructor
  · simp only [encode, jsOrder_eq_self h]
  · simp only [decode, jsOrder_eq_self h]
    rcases hd : decodeFields fs buf off cfg with e | ⟨fvs, off1⟩ <;>
      simp [hd, Except.map]

/-- Witness for C6 (amended) at a concrete struct with one non-index field
name. -/
theorem claim_c6_enumeration_order_witness :
    encode (.struct [("b", .u8)]) (.obj [("b", .num 5)]) [7] 0 STANDARD
      = encodePairs (pairFields [("b", Ty.u8)] (.obj [("b", .num 5)])) [7] 0 STANDARD ∧
    decode (.struct [("b", .u8)]) [7] 0 STANDARD
      = Except.map (fun r => (Val.obj r.1, r.2))
          (decodeFields [("b", Ty.u8)] [7] 0 STANDARD) :=
  claim_c6_enumeration_order [("b", Ty.u8)] (.obj [("b", .num 5)]) [7] 0 STANDARD
    (by decide)

/-- C7 (counterexample): the claim says encoding `Array(u8, size=3)` with a
2-element value fails with `ShapeMismatch` before any byte is written.  In
fact the encoder performs no arity check at all: it succeeds, writes all 3
element slots (the missing element is `undefined`, which `setUint8` coerces
through `NaN` to the byte 0) and returns offset 3. -/
theorem claim_c7_shape_mismatch_counterexample :
    encode (.array .u8 3) (.list [.num 7, .num 9]) [0, 0, 0] 0 STANDARD
      = .ok (3, [7, 9, 0]) ∧ ([7, 9, 0] : List Nat) ≠ [0, 0, 0] := by
  constructor
  · simp [encode, encodeElems, writeBytes, numBytes, natToLeBytes, jsToNat,
      valAt, show List.range 3 = [0, 1, 2] from rfl, STANDARD]
  · simp

/-- Helper for C7: a byte value reduced twice modulo 256. -/
theorem toNat_emod_256 (a : Int) : ((a % ((2 : Int) ^ 8)).toNat) % 256 = (a % 256).toNat := by
  have h0 : (0 : Int) ≤ a % 256 := Int.emod_nonneg a (by norm_num)
  have h1 : a % 256 < 256 := Int.emod_lt_of_pos a (by norm_num)
  have h2 : ((2 : Int) ^ 8) = 256 := by norm_num
  rw [h2]
  omega

/-- C7 (amended): encoding `Array(u8, size=3)` with a 2-element value does
not fail — the encoder always writes exactly `size` element slots, using
the value at each index and the byte 0 where the value has no element
(JS `undefined` coerced through `NaN`); a 3-element value encodes all three
bytes.  Both calls succeed and return offset 3. -/
theorem claim_c7_array_zero_fill (a b c : Int) (cfg : BincodeConfig) :
    encode (.array .u8 3) (.list [.num a, .num b]) [0, 0, 0] 0 cfg
      = .ok (3, [(a % 256).toNat, (b % 256).toNat, 0]) ∧
    encode (.array .u8 3) (.list [.num a, .num b, .num c]) [0, 0, 0] 0 cfg
      = .ok (3, [(a % 256).toNat, (b % 256).toNat, (c % 256).toNat]) := by
  obtain ⟨e, ie, lim⟩ := cfg
  cases e <;>
    constructor <;>
    simp [encode, encodeElems, writeBytes, numBytes, natToLeBytes, jsToNat,
      valAt, toNat_emod_256, show List.range 3 = [0, 1, 2] from rfl] <;>
    omega

/-- C8 (confirmed): a one-element tuple schema encodes exactly as its single
element schema — the same call with the same value, buffer, offset and
configuration — and in particular `Tuple(u8)` with the value 7 produces the
single byte 7, just like `u8` would. -/
theorem claim_c8_tuple_of_one (t : Ty) (v : Val) (buf : List Nat) (off : Nat)
    (cfg : BincodeConfig) :
    encode (.tuple [t]) v buf off cfg = encode t v buf off cfg ∧
    encode (.tuple [.u8]) (.num 7) [0] 0 STANDARD = .ok (1, [7]) := by
  constructor
  · simp [encode]
  · simp [encode, writeBytes, numBytes, natToLeBytes, jsToNat, STANDARD]

/-- C9 (confirmed): a successful `encode` call only modifies the bytes in
the half-open range from the starting offset to the returned offset; the
buffer keeps its length and every byte outside that range is unchanged. -/
theorem claim_c9_encode_frame (ty : Ty) (v : Val) (buf : List Nat) (off : Nat)
    (cfg : BincodeConfig) (off' : Nat) (buf' : List Nat)
    (h : encode ty v buf off cfg = .ok (off', buf')) :
    off ≤ off' ∧ buf'.length = buf.length ∧
      ∀ i, i < off ∨ off' ≤ i → buf'[i]? = buf[i]? := by
  have hf := encode_frame_aux (tyMeasure ty) ty (Nat.le_refl _) v buf off cfg off' buf' h
  exact ⟨hf.1, hf.2.1, hf.2.2⟩

/-- Witness for C9 at a concrete call: writing a `u8` at offset 1 of a
3-byte buffer changes only index 1. -/
theorem claim_c9_encode_frame_witness :
    1 ≤ 2 ∧ ([5, 7, 5] : List Nat).length = ([5, 5, 5] : List Nat).length ∧
      ∀ i, i < 1 ∨ 2 ≤ i → ([5, 7, 5] : List Nat)[i]? = ([5, 5, 5] : List Nat)[i]? :=
  claim_c9_encode_frame .u8 (.num 7) [5, 5, 5] 1 STANDARD 2 [5, 7, 5]
    (by simp [encode, writeBytes, numBytes, natToLeBytes, jsToNat, STANDARD])

/-- C10 (confirmed): an empty tuple schema encodes by writing nothing and
returning the offset unchanged, and decodes (at any offset, against any
buffer) to the empty sequence with the cursor unchanged. -/
theorem claim_c10_empty_tuple (v : Val) (buf : List Nat) (off : Nat)
    (cfg : BincodeConfig) :
    encode (.tuple []) v buf off cfg = .ok (off, buf) ∧
    decode (.tuple []) buf off cfg = .ok (.list [], off) := by
  constructor
  · simp [encode, encodePairs, pairValues]
  · simp [decode, decodeSeq]

end RType
